import Mathlib

/-!
Shallow embedding of `src/obj-to-js-array.cpp`: the tokenizer, the attribute
block reader `parseVertexAttribute`, the face-scanning/interning loop of
`objToJs`, and the spatial sort `sortZX`, together with proofs about them.

Modelling conventions:
* C++ `double` is modelled as `ℚ` (exact arithmetic; no claim here depends on
  rounding).
* C++ strings are modelled as `List Char`.
* The input stream is a list of lines plus the stream's eofbit;
  `std::getline` sets eofbit when it stops at end-of-input instead of at a
  newline, so the model also records whether the underlying text ends with a
  newline.
* Indeterminate values (uninitialized stack variables) are modelled as
  explicit parameters, gathered in the structure `Indet`.
* An out-of-bounds `std::vector::operator[]` read — undefined behaviour in
  C++ — is modelled as yielding an oracle value while setting a `ub` flag
  that is threaded through the conversion.
-/

/-- Rational stand-in for the C++ `double`. -/
abbrev Double := ℚ

/-- The C++ struct Vec3. -/
structure Vec3 where
  x : Double
  y : Double
  z : Double
  deriving DecidableEq, Repr

/-- The C++ struct Vec2. -/
structure Vec2 where
  x : Double
  y : Double
  deriving DecidableEq, Repr

/-- The C++ struct Vertex: presence flags, position, normal, texcoord. -/
structure Vertex where
  hasNorm : Bool
  hasUV : Bool
  p : Vec3
  n : Vec3
  t : Vec2
  deriving DecidableEq, Repr

/-- All delimiter-separated fields of a character list, including empty
fields between consecutive delimiters and the final field after the last
delimiter. -/
def splitFieldsAux (d : Char) : List Char → List Char → List (List Char)
  | [], cur => [cur.reverse]
  | c :: cs, cur =>
    if c = d then cur.reverse :: splitFieldsAux d cs []
    else splitFieldsAux d cs (c :: cur)

/-- The field sequence produced by repeated `std::getline(ss, item, d)` on a
stringstream holding `s`: getline fails at end-of-stream, so an empty input
yields no fields and a trailing delimiter does not yield a final empty
field. -/
def cppSplit (s : List Char) (d : Char) : List (List Char) :=
  match s with
  | [] => []
  | _ :: _ =>
    if s.getLast? = some d then (splitFieldsAux d s []).dropLast
    else splitFieldsAux d s []

/-- Decimal digits folded into a natural number; `none` if a character is not
a digit. -/
def digitsToNatAux (acc : Nat) : List Char → Option Nat
  | [] => some acc
  | c :: cs =>
    if c.isDigit then digitsToNatAux (10 * acc + (c.toNat - 48)) cs else none

/-- Model of istringstream extraction into `unsigned int` for the descriptor
index fields: decimal digits only; a value that does not fit in 32 bits sets
the stream failbit (C++11 overflow behaviour), modelled as a parse failure.
Signed or otherwise non-numeric text fails extraction. -/
def parseUInt (s : List Char) : Option Nat :=
  match digitsToNatAux 0 s with
  | none => none
  | some n => if n < 4294967296 then some n else none

/-- Magnitude part of a decimal numeral: integer digits, an optional point
and fraction digits, read exactly into `ℚ`. -/
def parseDoubleMag (s : List Char) : Option Double :=
  match splitFieldsAux '.' s [] with
  | [ip] =>
    if ip.isEmpty then none
    else (digitsToNatAux 0 ip).map (fun n => (n : ℚ))
  | [ip, fp] =>
    if ip.isEmpty && fp.isEmpty then none
    else
      match digitsToNatAux 0 ip, digitsToNatAux 0 fp with
      | some n, some f => some ((n : ℚ) + (f : ℚ) / (10 : ℚ) ^ fp.length)
      | _, _ => none
  | _ => none

/-- Model of istringstream extraction into `double` for the attribute lines:
an optional sign and an exact decimal numeral.  Exponent notation and
prefix-only extraction are not exercised by any claim and are modelled as
failures. -/
def parseDouble (s : List Char) : Option Double :=
  match s with
  | '-' :: rest => (parseDoubleMag rest).map Neg.neg
  | '+' :: rest => parseDoubleMag rest
  | _ => parseDoubleMag s

/-- Whitespace of the default C locale, as classified by the extraction
sentry of `operator>>`. -/
def isCppSpace (c : Char) : Bool :=
  c = ' ' || c = '\t' || c = '\n' || c = '\x0b' || c = '\x0c' || c = '\r'

/-- Model of istringstream extraction into `std::string`: skip leading
whitespace, then extract characters up to the next whitespace character or
the end of the field; when no character is extracted — the field consists
solely of whitespace — the stream sets failbit and the extraction fails, so
`tokenize` returns `-1`. -/
def parseStr (s : List Char) : Option (List Char) :=
  let t := s.dropWhile isCppSpace
  if t.isEmpty then none else some (t.takeWhile (fun c => !isCppSpace c))

/-- Loop of the C++ `tokenize`: walk the fields, writing the sentinel for an
empty field and the parsed value otherwise into the out-array slot for the
field's position, returning `-1` as soon as a non-empty field fails to parse
(the out array keeps the writes already made) and the token count otherwise.
A write past the end of the out array — undefined behaviour in C++ — is
modelled as dropped (`List.set` out of range). -/
def tokenizeAux (parse : List Char → Option α) (sentinel : α) :
    List (List Char) → List α → Nat → Int × List α
  | [], out, count => ((count : Int), out)
  | item :: rest, out, count =>
    if item.isEmpty then
      tokenizeAux parse sentinel rest (out.set count sentinel) (count + 1)
    else
      match parse item with
      | none => (-1, out)
      | some v => tokenizeAux parse sentinel rest (out.set count v) (count + 1)

/-- Model of the C++ `tokenize`: split the line at the delimiter as
`std::getline` does, optionally discard the first field, and process at most
`maxTokens` fields. -/
def tokenize (parse : List Char → Option α) (out : List α) (line : List Char)
    (maxTokens : Nat) (skipFirst : Bool) (delim : Char) (sentinel : α) :
    Int × List α :=
  let fields := cppSplit line delim
  let fields' := if skipFirst then fields.drop 1 else fields
  tokenizeAux parse sentinel (fields'.take maxTokens) out 0

/-- Input stream: remaining lines, whether the underlying text ends with a
newline, and the stream's eofbit. -/
structure IStream where
  lines : List (List Char)
  finalNL : Bool
  eofbit : Bool
  deriving DecidableEq, Repr

/-- Model of `std::getline(in, line)`: fails once the eofbit is set or no
line remains; reading the last line of a text that does not end in a newline
succeeds but sets the eofbit, exactly as the C++ stream does. -/
def getline (s : IStream) : Option (List Char) × IStream :=
  if s.eofbit then (none, s)
  else
    match s.lines with
    | [] => (none, { s with eofbit := true })
    | l :: rest =>
      (some l, { s with lines := rest, eofbit := rest.isEmpty && !s.finalNL })

/-- Result of one `parseVertexAttribute` call: the C++ return value, the
stream, the lookahead line `prevLine`, the (stack-persistent within the call)
`values` array, and the parsed attribute list. -/
structure PvaResult (V : Type) where
  ok : Bool
  s : IStream
  line : List Char
  vals : List Double
  attribs : List V
  deriving Repr

/-- Model of the C++ `parseVertexAttribute<V, D>`: starting from the current
lookahead line, skip blank/comment lines, stop (leaving the line as the
lookahead) at a line whose first two characters do not match
`cat`/`typ`, tokenize each matching line (delimiter space, first field
skipped, up to 3 tokens, sentinel 0 — the C++ call site always passes the
default `maxTokens = 3`, even for 2-component attributes) and append the
attribute built by `mk` from the values array; fail on a non-positive token
count.  On a failed getline the C++ `std::getline` leaves the target string
erased, modelled by the empty lookahead line. -/
def parseVertexAttribute (mk : List Double → V) (cat typ : Char)
    (s : IStream) (prev : List Char) (vals : List Double) (acc : List V) :
    PvaResult V :=
  if prev.length < 2 ∨ prev.getD 0 ' ' = '#' then
    match h : getline s with
    | (none, s') => ⟨true, s', [], vals, acc⟩
    | (some l, s') => parseVertexAttribute mk cat typ s' l vals acc
  else if ¬(prev.getD 0 ' ' = cat ∧ prev.getD 1 ' ' = typ) then
    ⟨true, s, prev, vals, acc⟩
  else
    let r := tokenize parseDouble vals prev 3 true ' ' 0
    if r.1 ≤ 0 then ⟨false, s, prev, r.2, acc⟩
    else
      match h : getline s with
      | (none, s') => ⟨true, s', [], r.2, acc ++ [mk r.2]⟩
      | (some l, s') => parseVertexAttribute mk cat typ s' l r.2 (acc ++ [mk r.2])
termination_by s.lines.length
decreasing_by
  all_goals
    unfold getline at h
    split at h
    · simp_all
    · split at h
      · simp_all
      · simp only [Prod.mk.injEq, Option.some.injEq] at h
        obtain ⟨h1, h2⟩ := h
        subst h2
        simp_all

/-- Constructor for `Vec3` from the values array, as the C++ pointer loop
copies `values[0..2]` into the struct fields. -/
def mkVec3 (vs : List Double) : Vec3 :=
  ⟨vs.getD 0 0, vs.getD 1 0, vs.getD 2 0⟩

/-- Constructor for `Vec2` from the values array (`values[0..1]`). -/
def mkVec2 (vs : List Double) : Vec2 :=
  ⟨vs.getD 0 0, vs.getD 1 0⟩

/-- The error exits of `objToJs`, one per `cerr` message / `return false`
site. -/
inductive ConvError where
  | malformedPosition
  | emptyPositions
  | eofAfterPositions
  | malformedTexcoord
  | eofAfterTexcoords
  | malformedNormal
  | eofAfterNormals
  | malformedFaceDegree (line : List Char)
  | malformedVertex (v : List Char)
  deriving DecidableEq, Repr

instance [DecidableEq ε] [DecidableEq α] : DecidableEq (Except ε α) := fun x y =>
  match x, y with
  | .error a, .error b =>
    if h : a = b then .isTrue (by rw [h])
    else .isFalse (by intro hc; cases hc; exact h rfl)
  | .error _, .ok _ => .isFalse (by intro hc; cases hc)
  | .ok _, .error _ => .isFalse (by intro hc; cases hc)
  | .ok a, .ok b =>
    if h : a = b then .isTrue (by rw [h])
    else .isFalse (by intro hc; cases hc; exact h rfl)

/-- Indeterminate values of the uninitialized C++ stack variables, passed as
explicit parameters: the three `double values[D]` arrays of the attribute
readers, the `unsigned int locations[3]` array, the per-miss `Vec2 tex` /
`Vec3 norm` locals, and the value an out-of-bounds `positions[...]` read
yields. -/
structure Indet where
  pvals : List Double
  tvals : List Double
  nvals : List Double
  locs : List Nat
  gpos : Vec3
  gtex : Vec2
  gnorm : Vec3
  deriving Repr

/-- Zero-filled instantiation of the indeterminate values, for running the
model on concrete inputs. -/
def zeroIndet : Indet :=
  ⟨[0, 0, 0], [0, 0], [0, 0, 0], [0, 0, 0], ⟨0, 0, 0⟩, ⟨0, 0⟩, ⟨0, 0, 0⟩⟩

/-- Read `arr[i]` as the C++ `std::vector::operator[]` does: in bounds the
element, out of bounds undefined behaviour — modelled as the oracle value
`g` together with a raised flag. -/
def readArr (arr : List α) (i : Nat) (g : α) : α × Bool :=
  if h : i < arr.length then (arr.get ⟨i, h⟩, false) else (g, true)

/-- Mutable state of the face-scanning loop of `objToJs`: the
`unsigned int locations[3]` array (persistent across descriptors and lines),
the descriptor cache, the vertex buffer, the index buffer, and the flag
recording whether an out-of-bounds read has occurred. -/
structure FaceState where
  locations : List Nat
  indexCache : List (List Char × Nat)
  vertexData : List Vertex
  elementData : List Nat
  ub : Bool
  deriving DecidableEq, Repr

/-- Body of the inner `for` loop of `objToJs` for one face-vertex descriptor
`v` (source lines 156–185): on a cache hit append the cached index; on a miss
tokenize the descriptor on `/` into the `locations` array (error on a
non-positive count), read `positions[locations[0] - 1]` with the unsigned
32-bit wrap-around of `locations[0] - 1`, conditionally read
`texcoords[locations[1] - 1]` and `normals[locations[2] - 1]` (the locals
`tex`/`norm` otherwise keep their indeterminate values), then append the new
index, cache the descriptor, and append the vertex built with flags
`!disableNormal`, `!disableTexture`. -/
def internOne (positions : List Vec3) (texcoords : List Vec2)
    (normals : List Vec3) (disableTexture disableNormal : Bool) (ind : Indet)
    (st : FaceState) (v : List Char) : Except ConvError FaceState :=
  match st.indexCache.lookup v with
  | some idx => .ok { st with elementData := st.elementData ++ [idx] }
  | none =>
    let r := tokenize parseUInt st.locations v 3 false '/' 0
    if r.1 ≤ 0 then .error (.malformedVertex v)
    else
      let locs := r.2
      let i0 := (locs.getD 0 0 + 4294967295) % 4294967296
      let pr := readArr positions i0 ind.gpos
      let l1 := locs.getD 1 0
      let tr := if l1 > 0 then readArr texcoords (l1 - 1) ind.gtex
                else (ind.gtex, false)
      let l2 := locs.getD 2 0
      let nr := if l2 > 0 then readArr normals (l2 - 1) ind.gnorm
                else (ind.gnorm, false)
      .ok { locations := locs,
            indexCache := (v, st.vertexData.length) :: st.indexCache,
            vertexData := st.vertexData ++
              [⟨!disableNormal, !disableTexture, pr.1, nr.1, tr.1⟩],
            elementData := st.elementData ++ [st.vertexData.length],
            ub := st.ub || pr.2 || tr.2 || nr.2 }

/-- The inner `for (int i = 0; i < vertexCount; ++i)` loop of `objToJs`,
folded over the descriptor occurrences of one face line. -/
def internList (positions : List Vec3) (texcoords : List Vec2)
    (normals : List Vec3) (disableTexture disableNormal : Bool) (ind : Indet)
    (st : FaceState) : List (List Char) → Except ConvError FaceState
  | [] => .ok st
  | v :: rest =>
    match internOne positions texcoords normals disableTexture disableNormal
        ind st v with
    | .error e => .error e
    | .ok st' =>
      internList positions texcoords normals disableTexture disableNormal ind
        st' rest

/-- The descriptor occurrences processed for one face line: the pointers set
up in `triangles[0..5]` (source lines 149–154) dereferenced in loop order —
the first three descriptors, then for a quad additionally descriptors
0, 2 and 3. -/
def triangleList (verts : List (List Char)) (deg : Int) : List (List Char) :=
  [verts.getD 0 [], verts.getD 1 [], verts.getD 2 []] ++
    (if deg = 4 then [verts.getD 0 [], verts.getD 2 [], verts.getD 3 []]
     else [])

/-- The face-scanning `do … while (std::getline(in, line))` loop of
`objToJs`: skip lines not starting with `f`, tokenize a face line into the
`vertices` array (up to 4 fields, first field skipped), reject a token count
other than 3 or 4 as a malformed face degree, and intern the descriptor
occurrences of the resulting triangle(s).  On success the vertex buffer,
index buffer and out-of-bounds flag are returned. -/
def faceLoop (positions : List Vec3) (texcoords : List Vec2)
    (normals : List Vec3) (disableTexture disableNormal : Bool) (ind : Indet)
    (s : IStream) (line : List Char) (verts : List (List Char))
    (st : FaceState) :
    Except ConvError (List Vertex × List Nat × Bool) :=
  if line.length < 2 ∨ ¬(line.getD 0 ' ' = 'f') then
    match h : getline s with
    | (none, _) => .ok (st.vertexData, st.elementData, st.ub)
    | (some l, s') =>
      faceLoop positions texcoords normals disableTexture disableNormal ind
        s' l verts st
  else
    let r := tokenize parseStr verts line 4 true ' ' []
    if ¬(r.1 = 3 ∨ r.1 = 4) then .error (.malformedFaceDegree line)
    else
      match internList positions texcoords normals disableTexture
          disableNormal ind st (triangleList r.2 r.1) with
      | .error e => .error e
      | .ok st' =>
        match h : getline s with
        | (none, _) => .ok (st'.vertexData, st'.elementData, st'.ub)
        | (some l, s') =>
          faceLoop positions texcoords normals disableTexture disableNormal
            ind s' l r.2 st'
termination_by s.lines.length
decreasing_by
  all_goals
    unfold getline at h
    split at h
    · simp_all
    · split at h
      · simp_all
      · simp only [Prod.mk.injEq, Option.some.injEq] at h
        obtain ⟨h1, h2⟩ := h
        subst h2
        simp_all

/-- Model of `objToJs` (source lines 92–190): read the position, texcoord and
normal blocks in order — failing on a malformed block, an empty position set,
or an end-of-file indication after a block — then run the face-scanning loop.
The initial lookahead `line` is the default-constructed empty string; the
`vertices` array holds four default-constructed empty strings. -/
def objToJs (input : IStream) (disableTexture disableNormal : Bool)
    (ind : Indet) : Except ConvError (List Vertex × List Nat × Bool) :=
  let rp := parseVertexAttribute mkVec3 'v' ' ' input [] ind.pvals []
  if ¬rp.ok then .error .malformedPosition
  else if rp.attribs.length = 0 then .error .emptyPositions
  else if rp.s.eofbit then .error .eofAfterPositions
  else
    let rt := parseVertexAttribute mkVec2 'v' 't' rp.s rp.line ind.tvals []
    if ¬rt.ok then .error .malformedTexcoord
    else if rt.s.eofbit then .error .eofAfterTexcoords
    else
      let rn := parseVertexAttribute mkVec3 'v' 'n' rt.s rt.line ind.nvals []
      if ¬rn.ok then .error .malformedNormal
      else if rn.s.eofbit then .error .eofAfterNormals
      else
        faceLoop rp.attribs rt.attribs rn.attribs disableTexture
          disableNormal ind rn.s rn.line [[], [], [], []]
          ⟨ind.locs, [], [], [], false⟩

/-- The tolerance comparison `isEqual` of `sortZX`: absolute difference below
`1e-10`. -/
def isEqualD (a b : Double) : Bool :=
  decide (|a - b| < 1 / 10 ^ 10)

/-- The comparator handed to `std::sort` in `sortZX`: strictly smaller z, or
z equal within tolerance and strictly smaller x. -/
def vertBefore (v1 v2 : Nat × Vertex) : Bool :=
  decide (v1.2.p.z < v2.2.p.z) ||
    (isEqualD v1.2.p.z v2.2.p.z && decide (v1.2.p.x < v2.2.p.x))

/-- The mapping-construction loop of `sortZX`:
`mapping[sortedData[i].first] = i` for each position `i`. -/
def buildMapping : List (Nat × Vertex) → Nat → List Nat → List Nat
  | [], _, m => m
  | p :: rest, i, m => buildMapping rest (i + 1) (m.set p.1 i)

/-- Model of `sortZX` (source lines 194–227): pair each vertex with its
index, sort the pairs with the tolerance-based comparator (`std::sort` is
modelled as a stable merge sort with the same comparator; every theorem
below uses only that the result is some permutation of the input, which any
`std::sort` implementation guarantees), build the old-index → new-index
mapping, relocate the vertices, and rewrite each index through the mapping
(an index at or beyond the buffer length would be an out-of-bounds
`mapping[i]` read in C++, modelled as the value 0). -/
def sortZX (data : List Vertex) (indices : List Nat) :
    List Vertex × List Nat :=
  let sortedData := data.enum.mergeSort vertBefore
  let mapping := buildMapping sortedData 0 (List.replicate data.length 0)
  (sortedData.map Prod.snd, indices.map (fun i => mapping.getD i 0))

/-- Character list of a string literal, for writing concrete inputs. -/
def strL (s : String) : List Char :=
  s.data

instance : Inhabited Vertex :=
  ⟨⟨false, false, ⟨0, 0, 0⟩, ⟨0, 0, 0⟩, ⟨0, 0⟩⟩⟩

/-- Position of the first occurrence of `v` in a list (the list's length if
`v` is absent), used to state the interning and sorting properties. -/
def idxOf [DecidableEq α] (v : α) : List α → Nat
  | [] => 0
  | w :: rest => if w = v then 0 else idxOf v rest + 1

/-- The distinct elements of a list in first-seen order, used to state the
interning properties. -/
def firstSeenAux (acc : List (List Char)) :
    List (List Char) → List (List Char)
  | [] => acc
  | v :: rest =>
    if v ∈ acc then firstSeenAux acc rest else firstSeenAux (acc ++ [v]) rest

/-- First-seen-order distinct elements of a list. -/
def firstSeen (l : List (List Char)) : List (List Char) :=
  firstSeenAux [] l

/-- The interning invariant tying a face state to the descriptor occurrences
`seen` processed so far: the vertex buffer holds one slot per distinct
descriptor, the cache maps each seen descriptor to its first-seen position,
and the index buffer is the occurrence list mapped through those
positions. -/
def InternInv (seen : List (List Char)) (st : FaceState) : Prop :=
  st.vertexData.length = (firstSeen seen).length ∧
  (∀ v : List Char, st.indexCache.lookup v =
    if v ∈ seen then some (idxOf v (firstSeen seen)) else none) ∧
  st.elementData = seen.map (fun v => idxOf v (firstSeen seen))

/-- Bounds validity of a face state: every index-buffer entry and every
cached index is a valid vertex-buffer index. -/
def BufValid (st : FaceState) : Prop :=
  (∀ i ∈ st.elementData, i < st.vertexData.length) ∧
  (∀ p ∈ st.indexCache, p.2 < st.vertexData.length)

/-- Example 1 of the specification: four positions and the quad
`f 1 2 3 4`, the text ending with a newline. -/
def inpEx1 : IStream :=
  ⟨[strL "v 0 0 0", strL "v 1 0 0", strL "v 1 1 0", strL "v 0 1 0",
    strL "f 1 2 3 4"], true, false⟩

/-- A face whose sole descriptor string references position 2 while only one
position exists: the unchecked `positions[locations[0] - 1]` read is out of
bounds. -/
def inpOob : IStream :=
  ⟨[strL "v 0 0 0", strL "f 2 2 2"], true, false⟩

/-- Positions and normals but no texcoords, with descriptors of the form
`p//n` that supply no texcoord reference. -/
def inpNoTex : IStream :=
  ⟨[strL "v 0 0 0", strL "v 1 0 0", strL "v 0 1 0", strL "vn 0 0 1",
    strL "f 1//1 2//1 3//1"], true, false⟩

/-- A face line with five descriptors. -/
def inpFive : IStream :=
  ⟨[strL "v 0 0 0", strL "v 1 0 0", strL "v 1 1 0", strL "v 0 1 0",
    strL "v 2 2 2", strL "f 1 2 3 4 5"], true, false⟩

/-- An input whose last line is a face line but whose text does not end with
a newline: reading that line sets the stream's eofbit. -/
def inpNoNL : IStream :=
  ⟨[strL "v 0 0 0", strL "f 1 1 1"], false, false⟩

/-- Descriptors where the second supplies only a position index, so the
stale texcoord/normal slots of `locations` from the first descriptor are
reused. -/
def inpStale : IStream :=
  ⟨[strL "v 0 0 0", strL "v 1 0 0", strL "v 2 0 0", strL "vt 5 7",
    strL "vn 1 2 3", strL "f 1/1/1 2 3"], true, false⟩

theorem tokenizeAux_untouched (parse : List Char → Option α) (sent : α) :
    ∀ (toks : List (List Char)) (out : List α) (c j : Nat),
      j < c ∨ c + toks.length ≤ j →
      ((tokenizeAux parse sent toks out c).2).get? j = out.get? j := by
  intro toks
  induction toks with
  | nil => intro out c j _; rfl
  | cons t rest ih =>
    intro out c j hj
    simp only [List.length_cons] at hj
    have hne : c ≠ j := by omega
    simp only [tokenizeAux]
    by_cases ht : t.isEmpty
    · rw [if_pos ht, ih (out.set c sent) (c + 1) j (by omega)]
      exact List.get?_set_ne _ _ hne
    · rw [if_neg ht]
      cases hp : parse t with
      | none => rfl
      | some v =>
        rw [ih (out.set c v) (c + 1) j (by omega)]
        exact List.get?_set_ne _ _ hne

theorem tokenizeAux_nonneg_count (parse : List Char → Option α) (sent : α) :
    ∀ (toks : List (List Char)) (out : List α) (c : Nat),
      0 ≤ (tokenizeAux parse sent toks out c).1 →
      (tokenizeAux parse sent toks out c).1 = ((c + toks.length : Nat) : Int) := by
  intro toks
  induction toks with
  | nil => intro out c _; simp [tokenizeAux]
  | cons t rest ih =>
    intro out c hnn
    simp only [tokenizeAux] at hnn ⊢
    by_cases ht : t.isEmpty
    · rw [if_pos ht] at hnn ⊢
      rw [ih _ _ hnn]
      simp only [List.length_cons]
      omega
    · rw [if_neg ht] at hnn ⊢
      cases hp : parse t with
      | none => rw [hp] at hnn; simp at hnn
      | some v =>
        simp only [hp] at hnn
        rw [ih _ _ hnn]
        simp only [List.length_cons]
        omega

theorem tokenizeAux_write_upto (parse : List Char → Option α) (sent : α) :
    ∀ (toks : List (List Char)) (out : List α) (c i : Nat),
      (∀ k, k ≤ i → (toks.getD k []).isEmpty = true ∨
        (parse (toks.getD k [])).isSome = true) →
      i < toks.length → c + i < out.length →
      ((tokenizeAux parse sent toks out c).2).get? (c + i) =
        some (if (toks.getD i []).isEmpty then sent
              else (parse (toks.getD i [])).getD sent) := by
  intro toks
  induction toks with
  | nil => intro out c i _ hi; simp at hi
  | cons t rest ih =>
    intro out c i hgood hi hlen
    simp only [tokenizeAux]
    cases i with
    | zero =>
      have h0 := hgood 0 (by omega)
      simp only [List.getD_cons_zero] at h0 ⊢
      have hcl : c < out.length := by omega
      by_cases ht : t.isEmpty
      · rw [if_pos ht, tokenizeAux_untouched parse sent rest _ (c + 1) (c + 0)
          (by omega), Nat.add_zero, if_pos ht]
        exact List.get?_set_eq_of_lt _ hcl
      · rcases h0 with h0 | h0
        · exact absurd h0 ht
        · rw [if_neg ht]
          cases hp : parse t with
          | none => rw [hp] at h0; simp at h0
          | some v =>
            rw [tokenizeAux_untouched parse sent rest _ (c + 1) (c + 0)
              (by omega), Nat.add_zero, if_neg ht]
            simp only [hp, Option.getD_some]
            exact List.get?_set_eq_of_lt _ hcl
    | succ i' =>
      have h0 := hgood 0 (by omega)
      simp only [List.getD_cons_zero] at h0
      have harith : c + (i' + 1) = (c + 1) + i' := by omega
      have hgood' : ∀ k, k ≤ i' → ((rest.getD k []).isEmpty = true ∨
          (parse (rest.getD k [])).isSome = true) := by
        intro k hk
        have := hgood (k + 1) (by omega)
        simpa using this
      have hi' : i' < rest.length := by
        simp only [List.length_cons] at hi; omega
      simp only [List.getD_cons_succ]
      by_cases ht : t.isEmpty
      · rw [if_pos ht, harith]
        exact ih (out.set c sent) (c + 1) i' hgood' hi'
          (by rw [List.length_set]; omega)
      · rcases h0 with h0 | h0
        · exact absurd h0 ht
        · rw [if_neg ht]
          cases hp : parse t with
          | none => rw [hp] at h0; simp at h0
          | some v =>
            rw [harith]
            exact ih (out.set c v) (c + 1) i' hgood' hi'
              (by rw [List.length_set]; omega)

theorem tokenizeAux_hard_failure (parse : List Char → Option α) (sent : α) :
    ∀ (toks : List (List Char)) (j : Nat) (out : List α) (c : Nat),
      (∀ k, k < j → (toks.getD k []).isEmpty = true ∨
        (parse (toks.getD k [])).isSome = true) →
      j < toks.length → (toks.getD j []).isEmpty = false →
      parse (toks.getD j []) = none →
      (tokenizeAux parse sent toks out c).1 = -1 := by
  intro toks
  induction toks with
  | nil => intro j out c _ hj; simp at hj
  | cons t rest ih =>
    intro j out c hbefore hj hne hfail
    simp only [tokenizeAux]
    cases j with
    | zero =>
      simp only [List.getD_cons_zero] at hne hfail
      rw [if_neg (by simp [hne]), hfail]
    | succ j' =>
      have h0 := hbefore 0 (by omega)
      simp only [List.getD_cons_zero] at h0
      simp only [List.getD_cons_succ] at hne hfail
      have hbefore' : ∀ k, k < j' → ((rest.getD k []).isEmpty = true ∨
          (parse (rest.getD k [])).isSome = true) := by
        intro k hk
        have := hbefore (k + 1) (by omega)
        simpa using this
      have hj' : j' < rest.length := by
        simp only [List.length_cons] at hj; omega
      by_cases ht : t.isEmpty
      · rw [if_pos ht]
        exact ih j' _ _ hbefore' hj' hne hfail
      · rcases h0 with h0 | h0
        · exact absurd h0 ht
        · rw [if_neg ht]
          cases hp : parse t with
          | none => rw [hp] at h0
          | some v => exact ih j' _ _ hbefore' hj' hne hfail

/-- C9: for every line handed to the tokenizer, an empty field among the
fields processed (after the optional first-field skip, the earlier processed
fields being empty or parseable) receives the caller-supplied sentinel value
in its output slot rather than causing a failure, while the first non-empty
field that fails numeric conversion makes `tokenize` return the hard-failure
signal `-1`, distinct from every non-negative token count. -/
theorem tokenize_sentinel_vs_hard_failure :
    (∀ (α : Type) (parse : List Char → Option α) (sent : α) (out : List α)
      (line : List Char) (maxT : Nat) (skip : Bool) (delim : Char)
      (fields : List (List Char)) (i : Nat),
      fields = (if skip then (cppSplit line delim).drop 1
                else cppSplit line delim).take maxT →
      (∀ k, k ≤ i → (fields.getD k []).isEmpty = true ∨
        (parse (fields.getD k [])).isSome = true) →
      i < fields.length → i < out.length →
      (fields.getD i []).isEmpty = true →
      ((tokenize parse out line maxT skip delim sent).2).get? i = some sent) ∧
    (∀ (α : Type) (parse : List Char → Option α) (sent : α) (out : List α)
      (line : List Char) (maxT : Nat) (skip : Bool) (delim : Char)
      (fields : List (List Char)) (j : Nat),
      fields = (if skip then (cppSplit line delim).drop 1
                else cppSplit line delim).take maxT →
      (∀ k, k < j → (fields.getD k []).isEmpty = true ∨
        (parse (fields.getD k [])).isSome = true) →
      j < fields.length → (fields.getD j []).isEmpty = false →
      parse (fields.getD j []) = none →
      (tokenize parse out line maxT skip delim sent).1 = -1 ∧
      ∀ n : Nat, (tokenize parse out line maxT skip delim sent).1 ≠ (n : Int)) := by
  constructor
  · intro α parse sent out line maxT skip delim fields i hf hgood hi hlen hemp
    subst hf
    unfold tokenize
    have := tokenizeAux_write_upto parse sent _ out 0 i hgood hi
      (by omega)
    simp only [Nat.zero_add] at this
    rw [this, hemp, if_pos rfl]
  · intro α parse sent out line maxT skip delim fields j hf hbefore hj hne hfail
    subst hf
    unfold tokenize
    have hm1 := tokenizeAux_hard_failure parse sent _ j out 0 hbefore hj hne
      hfail
    refine ⟨hm1, ?_⟩
    intro n
    rw [hm1]
    omega

/-- Witness for C9 at concrete inputs: tokenizing `3//1` on `/` puts the
sentinel 0 in slot 1, and tokenizing `3/x/1` returns -1. -/
theorem tokenize_sentinel_vs_hard_failure_witness :
    ((tokenize parseUInt [9, 9, 9] (strL "3//1") 3 false '/' 0).2).get? 1 =
      some 0 ∧
    (tokenize parseUInt [9, 9, 9] (strL "3/x/1") 3 false '/' 0).1 = -1 :=
  ⟨tokenize_sentinel_vs_hard_failure.1 Nat parseUInt 0 [9, 9, 9]
      (strL "3//1") 3 false '/' _ 1 rfl (by decide) (by decide) (by decide)
      (by decide),
    (tokenize_sentinel_vs_hard_failure.2 Nat parseUInt 0 [9, 9, 9]
      (strL "3/x/1") 3 false '/' _ 1 rfl (by decide) (by decide) (by decide)
      (by decide)).1⟩

/-- C10: the tokenizer writes only the output slots of the fields it
processes — every slot at or beyond the returned (non-negative) token count
keeps its previous value — and consequently, in the run on `inpStale`, the
descriptors `2` and `3`, which supply no texcoord or normal field, produce
vertices whose texcoord `(5, 7)` and normal `(1, 2, 3)` come through the
stale `locations[1]`/`locations[2]` slots written while interning the
earlier descriptor `1/1/1`. -/
theorem tokenize_untouched_slots_stale_reuse :
    (∀ (α : Type) (parse : List Char → Option α) (sent : α) (out : List α)
      (line : List Char) (maxT : Nat) (skip : Bool) (delim : Char) (j : Nat),
      0 ≤ (tokenize parse out line maxT skip delim sent).1 →
      (tokenize parse out line maxT skip delim sent).1.toNat ≤ j →
      ((tokenize parse out line maxT skip delim sent).2).get? j =
        out.get? j) ∧
    objToJs inpStale false false zeroIndet =
      .ok ([⟨true, true, ⟨0, 0, 0⟩, ⟨1, 2, 3⟩, ⟨5, 7⟩⟩,
            ⟨true, true, ⟨1, 0, 0⟩, ⟨1, 2, 3⟩, ⟨5, 7⟩⟩,
            ⟨true, true, ⟨2, 0, 0⟩, ⟨1, 2, 3⟩, ⟨5, 7⟩⟩],
           [0, 1, 2], false) := by
  constructor
  · intro α parse sent out line maxT skip delim j hnn hj
    unfold tokenize at hnn hj ⊢
    rw [tokenizeAux_nonneg_count parse sent _ out 0 hnn] at hj
    simp only [Int.toNat_ofNat, Nat.zero_add] at hj
    exact tokenizeAux_untouched parse sent _ out 0 j (Or.inr (by omega))
  · simp [objToJs, parseVertexAttribute, getline, tokenize, tokenizeAux,
      cppSplit, splitFieldsAux, parseDouble, parseDoubleMag, digitsToNatAux,
      strL, mkVec3, mkVec2, zeroIndet, faceLoop, internList, internOne,
      triangleList, parseStr, isCppSpace, parseUInt, readArr, List.lookup, inpStale]

/-- Witness for C10's tokenizer part: tokenizing the single-field descriptor
`2` leaves slots 1 and 2 of the out array untouched. -/
theorem tokenize_untouched_slots_stale_reuse_witness :
    ((tokenize parseUInt [9, 8, 7] (strL "2") 3 false '/' 0).2).get? 1 =
      [9, 8, 7].get? 1 :=
  tokenize_untouched_slots_stale_reuse.1 Nat parseUInt 0 [9, 8, 7]
    (strL "2") 3 false '/' 1 (by decide) (by decide)

/-- C1: on `inpOob` the face descriptor `2` resolves to position index 2
with only one position present; the conversion performs an out-of-bounds
`positions[1]` read (the `ub` flag is raised) and still returns success —
no out-of-range error of any kind exists in `objToJs`, which has no bounds
check on the attribute reads. -/
theorem objToJs_oob_read_unchecked :
    objToJs inpOob false false zeroIndet =
      .ok ([⟨true, true, ⟨0, 0, 0⟩, ⟨0, 0, 0⟩, ⟨0, 0⟩⟩], [0, 0, 0], true) := by
  simp [objToJs, parseVertexAttribute, getline, tokenize, tokenizeAux,
    cppSplit, splitFieldsAux, parseDouble, parseDoubleMag, digitsToNatAux,
    strL, mkVec3, mkVec2, zeroIndet, faceLoop, internList, internOne,
    triangleList, parseStr, isCppSpace, parseUInt, readArr, List.lookup, inpOob]

/-- C4: a quad face is split along the fixed diagonal into the descriptor
occurrences `(a, b, c)` and `(a, c, d)`, in that order; on Example 1's
input the conversion yields the index buffer `[0, 1, 2, 0, 2, 3]` and a
vertex buffer of four entries. -/
theorem objToJs_quad_fan_split :
    (∀ a b c d : List Char, triangleList [a, b, c, d] 4 = [a, b, c, a, c, d]) ∧
    objToJs inpEx1 false false zeroIndet =
      .ok ([⟨true, true, ⟨0, 0, 0⟩, ⟨0, 0, 0⟩, ⟨0, 0⟩⟩,
            ⟨true, true, ⟨1, 0, 0⟩, ⟨0, 0, 0⟩, ⟨0, 0⟩⟩,
            ⟨true, true, ⟨1, 1, 0⟩, ⟨0, 0, 0⟩, ⟨0, 0⟩⟩,
            ⟨true, true, ⟨0, 1, 0⟩, ⟨0, 0, 0⟩, ⟨0, 0⟩⟩],
           [0, 1, 2, 0, 2, 3], false) := by
  constructor
  · intro a b c d; rfl
  · simp [objToJs, parseVertexAttribute, getline, tokenize, tokenizeAux,
      cppSplit, splitFieldsAux, parseDouble, parseDoubleMag, digitsToNatAux,
      strL, mkVec3, mkVec2, zeroIndet, faceLoop, internList, internOne,
      triangleList, parseStr, isCppSpace, parseUInt, readArr, List.lookup, inpEx1]
    decide

/-- Counterexample to C2 as stated: on `inpNoTex` — positions, an empty
texcoord block, and descriptors `p//n` that supply no texcoord reference —
the conversion succeeds with `hasUV = true` on every emitted vertex even
though the global disable flag is off and no descriptor supplied a texcoord;
the claimed `hasTexcoord = false` does not hold. -/
theorem objToJs_hasUV_despite_no_texcoord :
    objToJs inpNoTex false false zeroIndet =
      .ok ([⟨true, true, ⟨0, 0, 0⟩, ⟨0, 0, 1⟩, ⟨0, 0⟩⟩,
            ⟨true, true, ⟨1, 0, 0⟩, ⟨0, 0, 1⟩, ⟨0, 0⟩⟩,
            ⟨true, true, ⟨0, 1, 0⟩, ⟨0, 0, 1⟩, ⟨0, 0⟩⟩],
           [0, 1, 2], false) ∧
    Vertex.hasUV ⟨true, true, ⟨0, 0, 0⟩, ⟨0, 0, 1⟩, ⟨0, 0⟩⟩ = true := by
  constructor
  · simp [objToJs, parseVertexAttribute, getline, tokenize, tokenizeAux,
      cppSplit, splitFieldsAux, parseDouble, parseDoubleMag, digitsToNatAux,
      strL, mkVec3, mkVec2, zeroIndet, faceLoop, internList, internOne,
      triangleList, parseStr, isCppSpace, parseUInt, readArr, List.lookup, inpNoTex]
  · rfl

/-- Counterexample to C3 as stated: the face line `f 1 2 3 4 5` has five
vertex descriptors, yet on `inpFive` the conversion succeeds — the
tokenizer caps the count at 4, so the line is treated as the quad of its
first four descriptors and no MalformedFaceDegree error is raised. -/
theorem objToJs_five_descriptors_accepted :
    objToJs inpFive false false zeroIndet =
      .ok ([⟨true, true, ⟨0, 0, 0⟩, ⟨0, 0, 0⟩, ⟨0, 0⟩⟩,
            ⟨true, true, ⟨1, 0, 0⟩, ⟨0, 0, 0⟩, ⟨0, 0⟩⟩,
            ⟨true, true, ⟨1, 1, 0⟩, ⟨0, 0, 0⟩, ⟨0, 0⟩⟩,
            ⟨true, true, ⟨0, 1, 0⟩, ⟨0, 0, 0⟩, ⟨0, 0⟩⟩],
           [0, 1, 2, 0, 2, 3], false) := by
  simp [objToJs, parseVertexAttribute, getline, tokenize, tokenizeAux,
    cppSplit, splitFieldsAux, parseDouble, parseDoubleMag, digitsToNatAux,
    strL, mkVec3, mkVec2, zeroIndet, faceLoop, internList, internOne,
    triangleList, parseStr, isCppSpace, parseUInt, readArr, List.lookup, inpFive]
  decide

/-- Counterexample to C8 as stated: `inpNoNL` ends with a face line but no
trailing newline; reading that line sets the stream's eofbit, so the
conversion fails with the end-of-stream error even though face data follows
the position block. -/
theorem objToJs_eof_error_despite_face_data :
    objToJs inpNoNL false false zeroIndet =
      .error .eofAfterPositions ∧ inpNoNL.lines.getD 1 [] = strL "f 1 1 1" := by
  constructor
  · simp [objToJs, parseVertexAttribute, getline, tokenize, tokenizeAux,
      cppSplit, splitFieldsAux, parseDouble, parseDoubleMag, digitsToNatAux,
      strL, mkVec3, mkVec2, zeroIndet, faceLoop, internList, internOne,
      triangleList, parseStr, isCppSpace, parseUInt, readArr, List.lookup, inpNoNL]
  · rfl

theorem tokenizeAux_count_of_all_good (parse : List Char → Option α)
    (sent : α) :
    ∀ (toks : List (List Char)) (out : List α) (c : Nat),
      (∀ f ∈ toks, f.isEmpty = true ∨ (parse f).isSome = true) →
      (tokenizeAux parse sent toks out c).1 =
        ((c + toks.length : Nat) : Int) := by
  intro toks
  induction toks with
  | nil => intro out c _; simp [tokenizeAux]
  | cons t rest ih =>
    intro out c hall
    have h0 := hall t (List.mem_cons_self t rest)
    have hall' : ∀ f ∈ rest, f.isEmpty = true ∨ (parse f).isSome = true :=
      fun f hf => hall f (List.mem_cons_of_mem t hf)
    simp only [tokenizeAux, List.length_cons]
    by_cases ht : t.isEmpty
    · rw [if_pos ht, ih _ _ hall']
      omega
    · rcases h0 with h0 | h0
      · exact absurd h0 ht
      · rw [if_neg ht]
        cases hp : parse t with
        | none => rw [hp] at h0; simp at h0
        | some v =>
          rw [ih _ _ hall']
          omega

theorem tokenizeAux_neg_of_bad (parse : List Char → Option α) (sent : α) :
    ∀ (toks : List (List Char)) (out : List α) (c : Nat),
      (∃ f ∈ toks, f.isEmpty = false ∧ parse f = none) →
      (tokenizeAux parse sent toks out c).1 = -1 := by
  intro toks
  induction toks with
  | nil => intro out c hex; simp at hex
  | cons t rest ih =>
    intro out c hex
    obtain ⟨f, hfm, hfe, hfp⟩ := hex
    simp only [tokenizeAux]
    rcases List.mem_cons.mp hfm with rfl | hfm
    · rw [if_neg (by simp [hfe]), hfp]
    · by_cases ht : t.isEmpty
      · rw [if_pos ht]
        exact ih _ _ ⟨f, hfm, hfe, hfp⟩
      · rw [if_neg ht]
        cases hp : parse t with
        | none => rfl
        | some v => exact ih _ _ ⟨f, hfm, hfe, hfp⟩

theorem internOne_error_shape {P : List Vec3} {T : List Vec2} {Nm : List Vec3}
    {dt dn : Bool} {ind : Indet} {st : FaceState} {v : List Char}
    {e : ConvError} (h : internOne P T Nm dt dn ind st v = .error e) :
    e = .malformedVertex v := by
  unfold internOne at h
  cases hl : st.indexCache.lookup v with
  | some idx => rw [hl] at h; simp at h
  | none =>
    rw [hl] at h
    by_cases hr : (tokenize parseUInt st.locations v 3 false '/' 0).1 ≤ 0
    · rw [if_pos hr] at h
      cases h
      rfl
    · rw [if_neg hr] at h
      simp at h

theorem internList_error_shape {P : List Vec3} {T : List Vec2} {Nm : List Vec3}
    {dt dn : Bool} {ind : Indet} {e : ConvError} :
    ∀ {occs : List (List Char)} {st : FaceState},
      internList P T Nm dt dn ind st occs = .error e →
      ∃ v, e = .malformedVertex v := by
  intro occs
  induction occs with
  | nil => intro st h; simp [internList] at h
  | cons v rest ih =>
    intro st h
    unfold internList at h
    cases ho : internOne P T Nm dt dn ind st v with
    | error e' =>
      rw [ho] at h
      cases h
      exact ⟨v, internOne_error_shape ho⟩
    | ok st' =>
      rw [ho] at h
      exact ih h

theorem internOne_ok_vertexData {P : List Vec3} {T : List Vec2}
    {Nm : List Vec3} {dt dn : Bool} {ind : Indet} {st st' : FaceState}
    {v : List Char} (h : internOne P T Nm dt dn ind st v = .ok st') :
    st'.vertexData = st.vertexData ∨
      ∃ w : Vertex, w.hasNorm = !dn ∧ w.hasUV = !dt ∧
        st'.vertexData = st.vertexData ++ [w] := by
  unfold internOne at h
  cases hl : st.indexCache.lookup v with
  | some idx =>
    rw [hl] at h
    cases h
    exact Or.inl rfl
  | none =>
    rw [hl] at h
    by_cases hr : (tokenize parseUInt st.locations v 3 false '/' 0).1 ≤ 0
    · rw [if_pos hr] at h; simp at h
    · rw [if_neg hr] at h
      cases h
      exact Or.inr ⟨_, rfl, rfl, rfl⟩

theorem internList_flags {P : List Vec3} {T : List Vec2} {Nm : List Vec3}
    {dt dn : Bool} {ind : Indet} :
    ∀ {occs : List (List Char)} {st st' : FaceState},
      internList P T Nm dt dn ind st occs = .ok st' →
      (∀ w ∈ st.vertexData, w.hasUV = !dt ∧ w.hasNorm = !dn) →
      ∀ w ∈ st'.vertexData, w.hasUV = !dt ∧ w.hasNorm = !dn := by
  intro occs
  induction occs with
  | nil => intro st st' h hst; cases h; exact hst
  | cons v rest ih =>
    intro st st' h hst
    unfold internList at h
    cases ho : internOne P T Nm dt dn ind st v with
    | error e' => rw [ho] at h; cases h
    | ok st₁ =>
      rw [ho] at h
      refine ih h ?_
      rcases internOne_ok_vertexData ho with heq | ⟨w, hn, hu, heq⟩
      · rw [heq]; exact hst
      · rw [heq]
        intro w' hw'
        rcases List.mem_append.mp hw' with hw' | hw'
        · exact hst w' hw'
        · rcases List.mem_singleton.mp hw' with rfl
          exact ⟨hu, hn⟩

theorem faceLoop_flags (P : List Vec3) (T : List Vec2) (Nm : List Vec3)
    (dt dn : Bool) (ind : Indet) :
    ∀ (s : IStream) (line : List Char) (verts : List (List Char))
      (st : FaceState),
      (∀ vs es ub, faceLoop P T Nm dt dn ind s line verts st = .ok (vs, es, ub) →
        (∀ w ∈ st.vertexData, w.hasUV = !dt ∧ w.hasNorm = !dn) →
        ∀ w ∈ vs, w.hasUV = !dt ∧ w.hasNorm = !dn) := by
  intro s line verts st
  induction s, line, verts, st using faceLoop.induct P T Nm dt dn ind with
  | case1 s line verts st hskip s' hget =>
    intro vs es ub h hst
    rw [faceLoop.eq_def, if_pos hskip, hget] at h
    cases h
    exact hst
  | case2 s line verts st hskip l s' hget ih =>
    intro vs es ub h hst
    rw [faceLoop.eq_def, if_pos hskip, hget] at h
    exact ih vs es ub h hst
  | case3 s line verts st hskip r hdeg =>
    intro vs es ub h hst
    rw [faceLoop.eq_def, if_neg hskip] at h
    simp only [if_pos hdeg] at h
    cases h
  | case4 s line verts st hskip r hdeg e hintern =>
    intro vs es ub h hst
    rw [faceLoop.eq_def, if_neg hskip] at h
    simp only [if_neg hdeg, hintern] at h
    exact absurd h (by simp)
  | case5 s line verts st hskip r hdeg st' hintern s' hget =>
    intro vs es ub h hst
    rw [faceLoop.eq_def, if_neg hskip] at h
    simp only [if_neg hdeg, hintern] at h
    rw [hget] at h
    cases h
    exact internList_flags hintern hst
  | case6 s line verts st hskip r hdeg st' hintern l s' hget ih =>
    intro vs es ub h hst
    rw [faceLoop.eq_def, if_neg hskip] at h
    simp only [if_neg hdeg, hintern] at h
    rw [hget] at h
    exact ih vs es ub h (internList_flags hintern hst)

/-- C2 amended: every vertex created by a successful conversion carries
`hasUV = !disableTexture` and `hasNorm = !disableNormal`, set purely from
the global disable flags, independently of whether the descriptor supplied
the texcoord or normal reference (the attribute values themselves are read
from the arrays only when the descriptor's index slot is positive). -/
theorem objToJs_flags_from_disable_only (input : IStream)
    (dt dn : Bool) (ind : Indet) (vs : List Vertex) (es : List Nat)
    (ub : Bool) (h : objToJs input dt dn ind = .ok (vs, es, ub)) :
    ∀ w ∈ vs, w.hasUV = !dt ∧ w.hasNorm = !dn := by
  simp only [objToJs] at h
  split at h
  · exact absurd h (by simp)
  · split at h
    · exact absurd h (by simp)
    · split at h
      · exact absurd h (by simp)
      · split at h
        · exact absurd h (by simp)
        · split at h
          · exact absurd h (by simp)
          · split at h
            · exact absurd h (by simp)
            · split at h
              · exact absurd h (by simp)
              · exact faceLoop_flags _ _ _ dt dn ind _ _ _ _ vs es ub h
                  (by intro w hw; simp at hw)

/-- Witness for the amended C2 at the `inpNoTex` run. -/
theorem objToJs_flags_from_disable_only_witness :
    Vertex.hasUV ⟨true, true, ⟨0, 0, 0⟩, ⟨0, 0, 1⟩, ⟨0, 0⟩⟩ = !false ∧
    Vertex.hasNorm ⟨true, true, ⟨0, 0, 0⟩, ⟨0, 0, 1⟩, ⟨0, 0⟩⟩ = !false :=
  objToJs_flags_from_disable_only inpNoTex false false zeroIndet
    [⟨true, true, ⟨0, 0, 0⟩, ⟨0, 0, 1⟩, ⟨0, 0⟩⟩,
     ⟨true, true, ⟨1, 0, 0⟩, ⟨0, 0, 1⟩, ⟨0, 0⟩⟩,
     ⟨true, true, ⟨0, 1, 0⟩, ⟨0, 0, 1⟩, ⟨0, 0⟩⟩] [0, 1, 2] false
    (by simp [objToJs, parseVertexAttribute, getline, tokenize, tokenizeAux,
      cppSplit, splitFieldsAux, parseDouble, parseDoubleMag, digitsToNatAux,
      strL, mkVec3, mkVec2, zeroIndet, faceLoop, internList, internOne,
      triangleList, parseStr, isCppSpace, parseUInt, readArr, List.lookup, inpNoTex])
    ⟨true, true, ⟨0, 0, 0⟩, ⟨0, 0, 1⟩, ⟨0, 0⟩⟩ (by decide)

/-- C3 amended: a face line is rejected with MalformedFaceDegree exactly
when the tokenizer produces fewer than three descriptor tokens: either the
line has fewer than four space-separated fields (counting the `f` marker),
or one of the first four descriptor fields after the marker is non-empty
but consists solely of whitespace, so that stream extraction of it fails
and `tokenize` returns `-1`.  Because the tokenizer caps the count at four,
a line with five or more whitespace-free descriptors is NOT rejected — it
is processed as the quad of its first four descriptors. -/
theorem faceLoop_degree_error_iff (P : List Vec3) (T : List Vec2)
    (Nm : List Vec3) (dt dn : Bool) (ind : Indet) (nl : Bool)
    (line : List Char) (verts : List (List Char)) (st : FaceState)
    (hlen : 2 ≤ line.length) (hf : line.getD 0 ' ' = 'f') :
    (faceLoop P T Nm dt dn ind ⟨[], nl, true⟩ line verts st =
        .error (.malformedFaceDegree line)) ↔
      ((cppSplit line ' ').length < 4 ∨
        ∃ f ∈ ((cppSplit line ' ').drop 1).take 4,
          f.isEmpty = false ∧ parseStr f = none) := by
  have hcond : ¬(line.length < 2 ∨ ¬line.getD 0 ' ' = 'f') := by
    push_neg
    exact ⟨by omega, hf⟩
  rw [faceLoop.eq_def, if_neg hcond]
  by_cases hex : ∃ f ∈ ((cppSplit line ' ').drop 1).take 4,
      f.isEmpty = false ∧ parseStr f = none
  · have hdeg : (tokenize parseStr verts line 4 true ' ' []).1 = -1 := by
      unfold tokenize
      exact tokenizeAux_neg_of_bad parseStr [] _ verts 0 hex
    have hbad : ¬((tokenize parseStr verts line 4 true ' ' []).1 = 3 ∨
        (tokenize parseStr verts line 4 true ' ' []).1 = 4) := by
      rw [hdeg]
      decide
    simp only [if_pos hbad]
    exact ⟨fun _ => Or.inr hex, fun _ => trivial⟩
  · have hall : ∀ f ∈ ((cppSplit line ' ').drop 1).take 4,
        f.isEmpty = true ∨ (parseStr f).isSome = true := by
      intro f hfm
      by_cases hfe : f.isEmpty = true
      · exact Or.inl hfe
      · cases hps : parseStr f with
        | none =>
          exact absurd ⟨f, hfm, by simpa using hfe, hps⟩ hex
        | some v => exact Or.inr (by simp [hps])
    have hdeg : (tokenize parseStr verts line 4 true ' ' []).1 =
        (((((cppSplit line ' ').drop 1).take 4)).length : Int) := by
      show (tokenizeAux parseStr []
        (((cppSplit line ' ').drop 1).take 4) verts 0).1 = _
      have := tokenizeAux_count_of_all_good parseStr ([] : List Char)
        (((cppSplit line ' ').drop 1).take 4) verts 0 hall
      simpa using this
    have hlentake : ((((cppSplit line ' ').drop 1).take 4)).length =
        min 4 ((cppSplit line ' ').length - 1) := by
      rw [List.length_take, List.length_drop]
    by_cases hn : (cppSplit line ' ').length < 4
    · have hbad : ¬((tokenize parseStr verts line 4 true ' ' []).1 = 3 ∨
          (tokenize parseStr verts line 4 true ' ' []).1 = 4) := by
        rw [hdeg, hlentake]
        omega
      simp only [if_pos hbad]
      exact ⟨fun _ => Or.inl hn, fun _ => trivial⟩
    · have hgood : ¬¬((tokenize parseStr verts line 4 true ' ' []).1 = 3 ∨
          (tokenize parseStr verts line 4 true ' ' []).1 = 4) := by
        rw [hdeg, hlentake]
        omega
      simp only [if_neg hgood]
      constructor
      · intro h
        exfalso
        cases hi : internList P T Nm dt dn ind st
            (triangleList (tokenize parseStr verts line 4 true ' ' []).2
              (tokenize parseStr verts line 4 true ' ' []).1) with
        | error e =>
          rw [hi] at h
          simp only [Except.error.injEq] at h
          obtain ⟨v, rfl⟩ := internList_error_shape hi
          simp at h
        | ok st' =>
          rw [hi] at h
          simp only [getline] at h
          simp at h
      · intro h
        rcases h with h | h
        · omega
        · exact absurd h hex

/-- Witness for the amended C3: the face line `f 1 2` (two descriptors) is
rejected with MalformedFaceDegree, and so is `f \t 1 2`, which has four
space-separated fields but whose first descriptor field is the all-blank
`\t`, failing stream extraction. -/
theorem faceLoop_degree_error_iff_witness :
    faceLoop [] [] [] false false zeroIndet ⟨[], true, true⟩ (strL "f 1 2")
      [[], [], [], []] ⟨[0, 0, 0], [], [], [], false⟩ =
      .error (.malformedFaceDegree (strL "f 1 2")) ∧
    faceLoop [] [] [] false false zeroIndet ⟨[], true, true⟩
      (strL "f \t 1 2") [[], [], [], []] ⟨[0, 0, 0], [], [], [], false⟩ =
      .error (.malformedFaceDegree (strL "f \t 1 2")) :=
  ⟨(faceLoop_degree_error_iff [] [] [] false false zeroIndet true
      (strL "f 1 2") [[], [], [], []] ⟨[0, 0, 0], [], [], [], false⟩
      (by decide) (by decide)).mpr (Or.inl (by decide)),
    (faceLoop_degree_error_iff [] [] [] false false zeroIndet true
      (strL "f \t 1 2") [[], [], [], []] ⟨[0, 0, 0], [], [], [], false⟩
      (by decide) (by decide)).mpr (Or.inr (by decide))⟩

theorem idxOf_append_of_mem [DecidableEq α] {v : α} :
    ∀ {l l' : List α}, v ∈ l → idxOf v (l ++ l') = idxOf v l := by
  intro l l'
  induction l with
  | nil => intro h; simp at h
  | cons w rest ih =>
    intro h
    simp only [List.cons_append, idxOf, List.append_eq]
    by_cases hw : w = v
    · rw [if_pos hw, if_pos hw]
    · have hm : v ∈ rest := by
        rcases List.mem_cons.mp h with rfl | h
        · exact absurd rfl hw
        · exact h
      rw [if_neg hw, if_neg hw, ih hm]

theorem idxOf_concat_self [DecidableEq α] {v : α} :
    ∀ {l : List α}, v ∉ l → idxOf v (l ++ [v]) = l.length := by
  intro l
  induction l with
  | nil => intro _; simp [idxOf]
  | cons w rest ih =>
    intro h
    have hne : w ≠ v := fun hev => h (hev ▸ List.mem_cons_self w rest)
    simp only [List.cons_append, idxOf, List.length_cons, List.append_eq]
    rw [if_neg hne, ih (fun hm => h (List.mem_cons_of_mem w hm))]

theorem idxOf_lt_length [DecidableEq α] {v : α} :
    ∀ {l : List α}, v ∈ l → idxOf v l < l.length := by
  intro l
  induction l with
  | nil => intro h; simp at h
  | cons w rest ih =>
    intro h
    simp only [idxOf, List.length_cons]
    by_cases hw : w = v
    · rw [if_pos hw]; omega
    · rw [if_neg hw]
      have : v ∈ rest := by
        rcases List.mem_cons.mp h with rfl | h
        · exact absurd rfl hw
        · exact h
      have := ih this
      omega

theorem get_idxOf [DecidableEq α] {v : α} :
    ∀ {l : List α} (h : v ∈ l),
      l.get ⟨idxOf v l, idxOf_lt_length h⟩ = v := by
  intro l
  induction l with
  | nil => intro h; simp at h
  | cons w rest ih =>
    intro h
    by_cases hw : w = v
    · simp only [idxOf, if_pos hw]
      exact hw
    · have hm : v ∈ rest := by
        rcases List.mem_cons.mp h with rfl | hh
        · exact absurd rfl hw
        · exact hh
      have := ih hm
      simp only [idxOf, if_neg hw]
      simpa using this

theorem mem_firstSeenAux {x : List Char} :
    ∀ {l acc : List (List Char)}, x ∈ firstSeenAux acc l ↔ x ∈ acc ∨ x ∈ l := by
  intro l
  induction l with
  | nil => intro acc; simp [firstSeenAux]
  | cons v rest ih =>
    intro acc
    unfold firstSeenAux
    by_cases hv : v ∈ acc
    · rw [if_pos hv, ih]
      constructor
      · rintro (h | h)
        · exact Or.inl h
        · exact Or.inr (List.mem_cons_of_mem v h)
      · rintro (h | h)
        · exact Or.inl h
        · rcases List.mem_cons.mp h with rfl | h
          · exact Or.inl hv
          · exact Or.inr h
    · rw [if_neg hv, ih]
      simp only [List.mem_append, List.mem_singleton, List.mem_cons]
      tauto

theorem mem_firstSeen {x : List Char} {l : List (List Char)} :
    x ∈ firstSeen l ↔ x ∈ l := by
  unfold firstSeen
  rw [mem_firstSeenAux]
  simp

theorem firstSeenAux_snoc (v : List Char) :
    ∀ (l acc : List (List Char)),
      firstSeenAux acc (l ++ [v]) =
        if v ∈ firstSeenAux acc l then firstSeenAux acc l
        else firstSeenAux acc l ++ [v] := by
  intro l
  induction l with
  | nil => intro acc; simp [firstSeenAux]
  | cons w rest ih =>
    intro acc
    simp only [List.cons_append]
    unfold firstSeenAux
    by_cases hw : w ∈ acc
    · rw [if_pos hw, if_pos hw, ih]
    · rw [if_neg hw, if_neg hw, ih]

theorem length_firstSeenAux_le :
    ∀ (l acc : List (List Char)),
      (firstSeenAux acc l).length ≤ acc.length + l.length := by
  intro l
  induction l with
  | nil => intro acc; simp [firstSeenAux]
  | cons v rest ih =>
    intro acc
    unfold firstSeenAux
    by_cases hv : v ∈ acc
    · rw [if_pos hv]
      have := ih acc
      simp only [List.length_cons]
      omega
    · rw [if_neg hv]
      have := ih (acc ++ [v])
      simp only [List.length_append, List.length_cons, List.length_nil]
        at this ⊢
      omega

theorem firstSeenAux_of_nodup :
    ∀ (l acc : List (List Char)), l.Nodup → (∀ x ∈ l, x ∉ acc) →
      firstSeenAux acc l = acc ++ l := by
  intro l
  induction l with
  | nil => intro acc _ _; simp [firstSeenAux]
  | cons v rest ih =>
    intro acc hnd hdis
    unfold firstSeenAux
    rw [if_neg (hdis v (List.mem_cons_self v rest))]
    rw [ih (acc ++ [v]) (List.nodup_cons.mp hnd).2]
    · simp
    · intro x hx
      simp only [List.mem_append, List.mem_singleton]
      rintro (hm | rfl)
      · exact hdis x (List.mem_cons_of_mem v hx) hm
      · exact (List.nodup_cons.mp hnd).1 hx

theorem firstSeenAux_length_eq_nodup :
    ∀ (l acc : List (List Char)),
      (firstSeenAux acc l).length = acc.length + l.length → l.Nodup := by
  intro l
  induction l with
  | nil => intro acc _; exact List.nodup_nil
  | cons v rest ih =>
    intro acc hlen
    unfold firstSeenAux at hlen
    by_cases hv : v ∈ acc
    · rw [if_pos hv] at hlen
      have := length_firstSeenAux_le rest acc
      simp only [List.length_cons] at hlen
      omega
    · rw [if_neg hv] at hlen
      have hrest : rest.Nodup := by
        refine ih (acc ++ [v]) ?_
        simp only [List.length_append, List.length_cons, List.length_nil]
          at hlen ⊢
        omega
      refine List.nodup_cons.mpr ⟨?_, hrest⟩
      intro hvr
      suffices haux : ∀ (r acc' : List (List Char)), v ∈ r → v ∈ acc' →
          (firstSeenAux acc' r).length < acc'.length + r.length by
        have := haux rest (acc ++ [v]) hvr (by simp)
        simp only [List.length_append, List.length_cons, List.length_nil]
          at hlen this
        omega
      intro r
      induction r with
      | nil => intro acc' hvr _; simp at hvr
      | cons w rr ihr =>
        intro acc' hvr hacc
        unfold firstSeenAux
        by_cases hw : w ∈ acc'
        · rw [if_pos hw]
          have := length_firstSeenAux_le rr acc'
          simp only [List.length_cons]
          omega
        · rw [if_neg hw]
          rcases List.mem_cons.mp hvr with rfl | hvr'
          · exact absurd hacc hw
          · have := ihr (acc' ++ [w]) hvr' (by simp [hacc])
            simp only [List.length_append, List.length_cons, List.length_nil]
              at this ⊢
            omega

theorem lookup_cons_eq_if (w v : List Char) (n : Nat)
    (cache : List (List Char × Nat)) :
    List.lookup w ((v, n) :: cache) =
      if w = v then some n else List.lookup w cache := by
  simp [List.lookup]
  split <;> simp_all

theorem internOne_inv {P : List Vec3} {T : List Vec2} {Nm : List Vec3}
    {dt dn : Bool} {ind : Indet} {seen : List (List Char)} {st st' : FaceState}
    {v : List Char} (hinv : InternInv seen st)
    (h : internOne P T Nm dt dn ind st v = .ok st') :
    InternInv (seen ++ [v]) st' := by
  obtain ⟨hlen, hcache, helem⟩ := hinv
  unfold internOne at h
  cases hl : st.indexCache.lookup v with
  | some idx =>
    rw [hl] at h
    cases h
    have hv : v ∈ seen := by
      by_contra hv
      rw [hcache v, if_neg hv] at hl
      cases hl
    have hidx : idx = idxOf v (firstSeen seen) := by
      rw [hcache v, if_pos hv] at hl
      exact (Option.some.injEq _ _).mp hl.symm
    have hfs : firstSeen (seen ++ [v]) = firstSeen seen := by
      show firstSeenAux [] (seen ++ [v]) = firstSeen seen
      rw [firstSeenAux_snoc]
      show (if v ∈ firstSeen seen then firstSeen seen
            else firstSeen seen ++ [v]) = firstSeen seen
      rw [if_pos (mem_firstSeen.mpr hv)]
    refine ⟨by simpa [hfs] using hlen, ?_, ?_⟩
    · intro w
      rw [hfs]
      show st.indexCache.lookup w = _
      rw [hcache w]
      by_cases hw : w ∈ seen
      · rw [if_pos hw, if_pos (List.mem_append.mpr (Or.inl hw))]
      · rw [if_neg hw, if_neg ?_]
        intro hmem
        rcases List.mem_append.mp hmem with hmem | hmem
        · exact hw hmem
        · rcases List.mem_singleton.mp hmem with rfl
          exact hw hv
    · show st.elementData ++ [idx] = _
      rw [hfs, List.map_append, helem, hidx]
      rfl
  | none =>
    rw [hl] at h
    have hv : v ∉ seen := by
      intro hv
      rw [hcache v, if_pos hv] at hl
      cases hl
    by_cases hr : (tokenize parseUInt st.locations v 3 false '/' 0).1 ≤ 0
    · rw [if_pos hr] at h; cases h
    · rw [if_neg hr] at h
      cases h
      have hvfs : v ∉ firstSeen seen := fun hm => hv (mem_firstSeen.mp hm)
      have hfs : firstSeen (seen ++ [v]) = firstSeen seen ++ [v] := by
        show firstSeenAux [] (seen ++ [v]) = firstSeen seen ++ [v]
        rw [firstSeenAux_snoc]
        show (if v ∈ firstSeen seen then firstSeen seen
              else firstSeen seen ++ [v]) = firstSeen seen ++ [v]
        exact if_neg hvfs
      refine ⟨?_, ?_, ?_⟩
      · show (st.vertexData ++ [_]).length = _
        rw [hfs]
        simp [hlen]
      · intro w
        show List.lookup w ((v, st.vertexData.length) :: st.indexCache) = _
        rw [lookup_cons_eq_if, hfs]
        by_cases hwv : w = v
        · subst hwv
          rw [if_pos rfl, if_pos (List.mem_append.mpr (Or.inr (by simp)))]
          rw [idxOf_concat_self hvfs, hlen]
        · rw [if_neg hwv, hcache w]
          by_cases hw : w ∈ seen
          · rw [if_pos hw, if_pos (List.mem_append.mpr (Or.inl hw))]
            rw [idxOf_append_of_mem (mem_firstSeen.mpr hw)]
          · rw [if_neg hw, if_neg ?_]
            intro hmem
            rcases List.mem_append.mp hmem with hmem | hmem
            · exact hw hmem
            · exact hwv (List.mem_singleton.mp hmem)
      · show st.elementData ++ [st.vertexData.length] = _
        rw [hfs, List.map_append]
        have h1 : seen.map (fun w => idxOf w (firstSeen seen ++ [v])) =
            seen.map (fun w => idxOf w (firstSeen seen)) := by
          refine List.map_eq_map_iff.mpr ?_
          intro w hw
          exact idxOf_append_of_mem (mem_firstSeen.mpr hw)
        rw [h1, ← helem]
        simp [idxOf_concat_self hvfs, hlen]

theorem internList_inv {P : List Vec3} {T : List Vec2} {Nm : List Vec3}
    {dt dn : Bool} {ind : Indet} :
    ∀ {occs : List (List Char)} {seen : List (List Char)} {st st' : FaceState},
      InternInv seen st →
      internList P T Nm dt dn ind st occs = .ok st' →
      InternInv (seen ++ occs) st' := by
  intro occs
  induction occs with
  | nil =>
    intro seen st st' hinv h
    cases h
    simpa using hinv
  | cons v rest ih =>
    intro seen st st' hinv h
    unfold internList at h
    cases ho : internOne P T Nm dt dn ind st v with
    | error e => rw [ho] at h; cases h
    | ok st₁ =>
      rw [ho] at h
      have := ih (internOne_inv hinv ho) h
      simpa using this

/-- C5: the interner deduplicates by the literal descriptor string.  For a
successful run over a list of descriptor occurrences from an empty cache,
the vertex buffer holds exactly one slot per distinct descriptor string (in
first-seen order), the index buffer is the occurrence list mapped through
each descriptor's first-seen slot (so a repeat appends the same cached
index and creates no vertex), its length is the number of occurrences, and
`len(vertexData) ≤ occurrences` with equality iff no descriptor string
repeats. -/
theorem internList_dedup_by_descriptor (P : List Vec3) (T : List Vec2)
    (Nm : List Vec3) (dt dn : Bool) (ind : Indet) (occs : List (List Char))
    (locs : List Nat) (st' : FaceState)
    (h : internList P T Nm dt dn ind ⟨locs, [], [], [], false⟩ occs =
      .ok st') :
    st'.vertexData.length = (firstSeen occs).length ∧
    st'.elementData = occs.map (fun v => idxOf v (firstSeen occs)) ∧
    st'.elementData.length = occs.length ∧
    st'.vertexData.length ≤ occs.length ∧
    (st'.vertexData.length = occs.length ↔ occs.Nodup) := by
  have hinv0 : InternInv [] ⟨locs, [], [], [], false⟩ := by
    refine ⟨rfl, ?_, rfl⟩
    intro v
    simp [List.lookup, firstSeen, firstSeenAux, idxOf]
  have hinv := internList_inv hinv0 h
  simp only [List.nil_append] at hinv
  obtain ⟨hlen, _, helem⟩ := hinv
  have hle : (firstSeen occs).length ≤ occs.length := by
    have := length_firstSeenAux_le occs []
    simpa [firstSeen] using this
  refine ⟨hlen, helem, by simp [helem], by omega, ?_, ?_⟩
  · intro heq
    refine firstSeenAux_length_eq_nodup occs [] ?_
    show (firstSeen occs).length = [].length + occs.length
    simp [← hlen, heq]
  · intro hnd
    have : firstSeen occs = occs := by
      show firstSeenAux [] occs = occs
      have := firstSeenAux_of_nodup occs [] hnd (by simp)
      simpa using this
    rw [hlen, this]

/-- Witness for C5: interning the occurrence list
`["1/1/1", "2", "1/1/1"]` produces two vertices and the index buffer
`[0, 1, 0]` — the repeat reuses slot 0. -/
theorem internList_dedup_by_descriptor_witness :
    FaceState.elementData
        ⟨[2, 1, 1], [(strL "2", 1), (strL "1/1/1", 0)],
          [⟨true, true, ⟨0, 0, 0⟩, ⟨1, 2, 3⟩, ⟨5, 7⟩⟩,
           ⟨true, true, ⟨1, 0, 0⟩, ⟨1, 2, 3⟩, ⟨5, 7⟩⟩],
          [0, 1, 0], false⟩ =
      ([strL "1/1/1", strL "2", strL "1/1/1"]).map
        (fun v => idxOf v (firstSeen [strL "1/1/1", strL "2", strL "1/1/1"])) :=
  (internList_dedup_by_descriptor [⟨0, 0, 0⟩, ⟨1, 0, 0⟩] [⟨5, 7⟩] [⟨1, 2, 3⟩]
    false false zeroIndet [strL "1/1/1", strL "2", strL "1/1/1"] [0, 0, 0]
    ⟨[2, 1, 1], [(strL "2", 1), (strL "1/1/1", 0)],
      [⟨true, true, ⟨0, 0, 0⟩, ⟨1, 2, 3⟩, ⟨5, 7⟩⟩,
       ⟨true, true, ⟨1, 0, 0⟩, ⟨1, 2, 3⟩, ⟨5, 7⟩⟩],
      [0, 1, 0], false⟩ (by decide)).2.1

theorem getD_mem_of_lt {l : List Nat} {i d : Nat} (h : i < l.length) :
    l.getD i d ∈ l := by
  rw [List.getD_eq_getElem l d h]
  exact List.getElem_mem h

theorem lookup_mem {cache : List (List Char × Nat)} {v : List Char}
    {i : Nat} (h : cache.lookup v = some i) : (v, i) ∈ cache := by
  induction cache with
  | nil => cases h
  | cons p rest ih =>
    obtain ⟨k, b⟩ := p
    rw [lookup_cons_eq_if] at h
    by_cases hv : v = k
    · rw [if_pos hv] at h
      cases h
      subst hv
      exact List.mem_cons_self _ _
    · rw [if_neg hv] at h
      exact List.mem_cons_of_mem _ (ih h)

theorem internOne_bufValid {P : List Vec3} {T : List Vec2} {Nm : List Vec3}
    {dt dn : Bool} {ind : Indet} {st st' : FaceState} {v : List Char}
    (hv : BufValid st) (h : internOne P T Nm dt dn ind st v = .ok st') :
    BufValid st' := by
  obtain ⟨helem, hcache⟩ := hv
  unfold internOne at h
  cases hl : st.indexCache.lookup v with
  | some idx =>
    rw [hl] at h
    cases h
    refine ⟨?_, hcache⟩
    intro i hi
    rcases List.mem_append.mp hi with hi | hi
    · exact helem i hi
    · rcases List.mem_singleton.mp hi with rfl
      have : (v, i) ∈ st.indexCache := lookup_mem hl
      exact hcache _ this
  | none =>
    rw [hl] at h
    by_cases hr : (tokenize parseUInt st.locations v 3 false '/' 0).1 ≤ 0
    · rw [if_pos hr] at h; cases h
    · rw [if_neg hr] at h
      cases h
      constructor
      · intro i hi
        simp only [List.length_append, List.length_cons, List.length_nil]
        rcases List.mem_append.mp hi with hi | hi
        · have := helem i hi
          omega
        · rcases List.mem_singleton.mp hi with rfl
          omega
      · intro p hp
        simp only [List.length_append, List.length_cons, List.length_nil]
        rcases List.mem_cons.mp hp with rfl | hp
        · omega
        · have := hcache p hp
          omega

theorem internList_bufValid {P : List Vec3} {T : List Vec2} {Nm : List Vec3}
    {dt dn : Bool} {ind : Indet} :
    ∀ {occs : List (List Char)} {st st' : FaceState}, BufValid st →
      internList P T Nm dt dn ind st occs = .ok st' → BufValid st' := by
  intro occs
  induction occs with
  | nil => intro st st' hv h; cases h; exact hv
  | cons v rest ih =>
    intro st st' hv h
    unfold internList at h
    cases ho : internOne P T Nm dt dn ind st v with
    | error e => rw [ho] at h; cases h
    | ok st₁ =>
      rw [ho] at h
      exact ih (internOne_bufValid hv ho) h

theorem faceLoop_bufValid (P : List Vec3) (T : List Vec2) (Nm : List Vec3)
    (dt dn : Bool) (ind : Indet) :
    ∀ (s : IStream) (line : List Char) (verts : List (List Char))
      (st : FaceState),
      (∀ vs es ub, faceLoop P T Nm dt dn ind s line verts st = .ok (vs, es, ub) →
        BufValid st → ∀ i ∈ es, i < vs.length) := by
  intro s line verts st
  induction s, line, verts, st using faceLoop.induct P T Nm dt dn ind with
  | case1 s line verts st hskip s' hget =>
    intro vs es ub h hst
    rw [faceLoop.eq_def, if_pos hskip, hget] at h
    cases h
    exact hst.1
  | case2 s line verts st hskip l s' hget ih =>
    intro vs es ub h hst
    rw [faceLoop.eq_def, if_pos hskip, hget] at h
    exact ih vs es ub h hst
  | case3 s line verts st hskip r hdeg =>
    intro vs es ub h hst
    rw [faceLoop.eq_def, if_neg hskip] at h
    simp only [if_pos hdeg] at h
    cases h
  | case4 s line verts st hskip r hdeg e hintern =>
    intro vs es ub h hst
    rw [faceLoop.eq_def, if_neg hskip] at h
    simp only [if_neg hdeg, hintern] at h
    exact absurd h (by simp)
  | case5 s line verts st hskip r hdeg st' hintern s' hget =>
    intro vs es ub h hst
    rw [faceLoop.eq_def, if_neg hskip] at h
    simp only [if_neg hdeg, hintern] at h
    rw [hget] at h
    cases h
    exact (internList_bufValid hst hintern).1
  | case6 s line verts st hskip r hdeg st' hintern l s' hget ih =>
    intro vs es ub h hst
    rw [faceLoop.eq_def, if_neg hskip] at h
    simp only [if_neg hdeg, hintern] at h
    rw [hget] at h
    exact ih vs es ub h (internList_bufValid hst hintern)

theorem buildMapping_length :
    ∀ (s : List (Nat × Vertex)) (i : Nat) (m : List Nat),
      (buildMapping s i m).length = m.length := by
  intro s
  induction s with
  | nil => intro i m; rfl
  | cons p rest ih =>
    intro i m
    unfold buildMapping
    rw [ih]
    exact List.length_set m p.1 i

theorem mem_buildMapping :
    ∀ (s : List (Nat × Vertex)) (i : Nat) (m : List Nat) (x : Nat),
      x ∈ buildMapping s i m → x ∈ m ∨ ∃ k, k < s.length ∧ x = i + k := by
  intro s
  induction s with
  | nil => intro i m x h; exact Or.inl h
  | cons p rest ih =>
    intro i m x h
    unfold buildMapping at h
    rcases ih (i + 1) (m.set p.1 i) x h with hm | ⟨k, hk, rfl⟩
    · rcases List.mem_or_eq_of_mem_set hm with hm | rfl
      · exact Or.inl hm
      · exact Or.inr ⟨0, by simp, by omega⟩
    · exact Or.inr ⟨k + 1, by simp only [List.length_cons]; omega, by omega⟩

theorem sortZX_indices_valid (data : List Vertex) (indices : List Nat)
    (h : ∀ i ∈ indices, i < data.length) :
    ∀ j ∈ (sortZX data indices).2, j < (sortZX data indices).1.length := by
  intro j hj
  unfold sortZX at hj ⊢
  simp only [List.mem_map] at hj
  obtain ⟨i, hi, rfl⟩ := hj
  have hN : i < data.length := h i hi
  have hslen : (data.enum.mergeSort vertBefore).length = data.length := by
    rw [(List.mergeSort_perm data.enum vertBefore).length_eq,
      List.enum_length]
  have hmlen : (buildMapping (data.enum.mergeSort vertBefore) 0
      (List.replicate data.length 0)).length = data.length := by
    rw [buildMapping_length, List.length_replicate]
  have hmem := getD_mem_of_lt (l := buildMapping
      (data.enum.mergeSort vertBefore) 0 (List.replicate data.length 0))
      (i := i) (d := 0) (by omega)
  rcases mem_buildMapping _ _ _ _ hmem with hm | ⟨k, hk, heq⟩
  · have : (buildMapping (data.enum.mergeSort vertBefore) 0
        (List.replicate data.length 0)).getD i 0 = 0 :=
      List.eq_of_mem_replicate hm
    rw [List.length_map, hslen]
    omega
  · rw [List.length_map, hslen]
    rw [hslen] at hk
    omega

/-- C6: every value stored in the index buffer is a valid index into the
vertex buffer at every point of construction and afterwards: a single
interning step preserves the validity of every index-buffer entry and every
cached index, every successful conversion yields an index buffer whose
entries are all below the vertex-buffer length, and the sort rewrites the
index buffer so that the property still holds afterwards. -/
theorem indexBuffer_always_valid :
    (∀ (P : List Vec3) (T : List Vec2) (Nm : List Vec3) (dt dn : Bool)
      (ind : Indet) (st st' : FaceState) (v : List Char), BufValid st →
      internOne P T Nm dt dn ind st v = .ok st' → BufValid st') ∧
    (∀ (input : IStream) (dt dn : Bool) (ind : Indet) (vs : List Vertex)
      (es : List Nat) (ub : Bool), objToJs input dt dn ind = .ok (vs, es, ub) →
      ∀ i ∈ es, i < vs.length) ∧
    (∀ (data : List Vertex) (indices : List Nat),
      (∀ i ∈ indices, i < data.length) →
      ∀ j ∈ (sortZX data indices).2, j < (sortZX data indices).1.length) := by
  refine ⟨fun P T Nm dt dn ind st st' v hv h =>
    internOne_bufValid hv h, ?_, sortZX_indices_valid⟩
  intro input dt dn ind vs es ub h
  simp only [objToJs] at h
  split at h
  · exact absurd h (by simp)
  · split at h
    · exact absurd h (by simp)
    · split at h
      · exact absurd h (by simp)
      · split at h
        · exact absurd h (by simp)
        · split at h
          · exact absurd h (by simp)
          · split at h
            · exact absurd h (by simp)
            · split at h
              · exact absurd h (by simp)
              · exact faceLoop_bufValid _ _ _ dt dn ind _ _ _ _ vs es ub h
                  ⟨by intro i hi; simp at hi, by intro p hp; simp at hp⟩

/-- Witness for C6: one interning step from a valid state yields a valid
state; the sort component applied to a concrete buffer keeps indices in
range. -/
theorem indexBuffer_always_valid_witness :
    BufValid ⟨[1, 0, 0], [(strL "1", 0)],
      [⟨true, true, ⟨0, 0, 0⟩, ⟨0, 0, 0⟩, ⟨0, 0⟩⟩], [0], false⟩ :=
  indexBuffer_always_valid.1 [⟨0, 0, 0⟩] [] [] false false zeroIndet
    ⟨[0, 0, 0], [], [], [], false⟩
    ⟨[1, 0, 0], [(strL "1", 0)],
      [⟨true, true, ⟨0, 0, 0⟩, ⟨0, 0, 0⟩, ⟨0, 0⟩⟩], [0], false⟩
    (strL "1") ⟨by intro i hi; simp at hi, by intro p hp; simp at hp⟩
    (by decide)

theorem buildMapping_getD_untouched {j : Nat} :
    ∀ {s : List (Nat × Vertex)} {i : Nat} {m : List Nat},
      j ∉ s.map Prod.fst →
      (buildMapping s i m).getD j 0 = m.getD j 0 := by
  intro s
  induction s with
  | nil => intro i m _; rfl
  | cons p rest ih =>
    intro i m hj
    simp only [List.map_cons, List.mem_cons] at hj
    push_neg at hj
    unfold buildMapping
    rw [ih hj.2]
    show ((m.set p.1 i).get? j).getD 0 = (m.get? j).getD 0
    rw [List.get?_set_ne _ _ (fun hc => hj.1 hc.symm)]

theorem buildMapping_getD_idxOf {j : Nat} :
    ∀ {s : List (Nat × Vertex)} {i : Nat} {m : List Nat},
      (s.map Prod.fst).Nodup → j ∈ s.map Prod.fst → j < m.length →
      (buildMapping s i m).getD j 0 = i + idxOf j (s.map Prod.fst) := by
  intro s
  induction s with
  | nil => intro i m _ hj _; simp at hj
  | cons p rest ih =>
    intro i m hnd hj hjm
    simp only [List.map_cons] at hnd hj ⊢
    unfold buildMapping
    by_cases hpj : p.1 = j
    · subst hpj
      have hnot : p.1 ∉ rest.map Prod.fst := (List.nodup_cons.mp hnd).1
      rw [buildMapping_getD_untouched hnot]
      show ((m.set p.1 i).get? p.1).getD 0 = _
      rw [List.get?_set_eq_of_lt _ hjm]
      simp [idxOf]
    · have hjr : j ∈ rest.map Prod.fst := by
        rcases List.mem_cons.mp hj with rfl | hjr
        · exact absurd rfl hpj
        · exact hjr
      rw [ih (List.nodup_cons.mp hnd).2 hjr (by rw [List.length_set]; omega)]
      simp only [idxOf, if_neg hpj]
      omega

theorem mergeSort_enum_pair {data : List Vertex} {pr : Nat × Vertex}
    (h : pr ∈ data.enum.mergeSort vertBefore) :
    data.get? pr.1 = some pr.2 :=
  List.mem_enum_iff_get?.mp
    ((List.mergeSort_perm data.enum vertBefore).mem_iff.mp h)

theorem mergeSort_enum_fst_perm (data : List Vertex) :
    List.Perm ((data.enum.mergeSort vertBefore).map Prod.fst)
      (List.range data.length) := by
  have h1 : List.Perm ((data.enum.mergeSort vertBefore).map Prod.fst)
      (data.enum.map Prod.fst) :=
    (List.mergeSort_perm data.enum vertBefore).map Prod.fst
  rw [List.enum_map_fst] at h1
  exact h1

theorem getD_eq_get {α : Type} {l : List α} {k : Nat} (d : α)
    (h : k < l.length) : l.getD k d = l.get ⟨k, h⟩ := by
  rw [List.getD_eq_getElem l d h]
  exact (List.get_eq_getElem l ⟨k, h⟩).symm

theorem perm_enum_snd_getD {data : List Vertex} {s : List (Nat × Vertex)}
    (hperm : List.Perm s data.enum) {i : Nat} (hN : i < data.length) :
    (s.map Prod.snd).getD (idxOf i (s.map Prod.fst)) default =
      data.getD i default := by
  have hpermf : List.Perm (s.map Prod.fst) (List.range data.length) := by
    have h1 := hperm.map Prod.fst
    rw [List.enum_map_fst] at h1
    exact h1
  have hmem : i ∈ s.map Prod.fst :=
    hpermf.mem_iff.mpr (List.mem_range.mpr hN)
  have hklt : idxOf i (s.map Prod.fst) < (s.map Prod.fst).length :=
    idxOf_lt_length hmem
  have hkslt : idxOf i (s.map Prod.fst) < s.length := by
    rw [List.length_map] at hklt
    exact hklt
  have hksnd : idxOf i (s.map Prod.fst) < (s.map Prod.snd).length := by
    rw [List.length_map]
    exact hkslt
  rw [getD_eq_get default hksnd]
  have hsnd : (s.map Prod.snd).get ⟨idxOf i (s.map Prod.fst), hksnd⟩ =
      Prod.snd (s.get ⟨idxOf i (s.map Prod.fst), hkslt⟩) := by
    simp [List.get_map]
  rw [hsnd]
  have hfst : Prod.fst (s.get ⟨idxOf i (s.map Prod.fst), hkslt⟩) = i := by
    have hgm : (s.map Prod.fst).get ⟨idxOf i (s.map Prod.fst), hklt⟩ =
        Prod.fst (s.get ⟨idxOf i (s.map Prod.fst), hkslt⟩) := by
      simp [List.get_map]
    rw [← hgm]
    exact get_idxOf hmem
  have hpair : data.get? (s.get ⟨idxOf i (s.map Prod.fst), hkslt⟩).1 =
      some (s.get ⟨idxOf i (s.map Prod.fst), hkslt⟩).2 :=
    List.mem_enum_iff_get?.mp (hperm.mem_iff.mp (List.get_mem _ _ _))
  rw [hfst] at hpair
  have hgd : data.getD i default =
      Prod.snd (s.get ⟨idxOf i (s.map Prod.fst), hkslt⟩) := by
    show (data.get? i).getD default = _
    rw [hpair]
    rfl
  rw [hgd]

/-- C7: the spatial sort preserves topology.  For any vertex buffer and any
index buffer whose entries are valid indices, the index buffer after
`sortZX` — each entry rewritten through the forward mapping of the sorting
permutation — references exactly the same sequence of vertex contents as the
original index buffer referenced in the original vertex buffer; in
particular every triangle, as a triple of vertex contents, is unchanged. -/
theorem sortZX_preserves_topology (data : List Vertex) (indices : List Nat)
    (h : ∀ i ∈ indices, i < data.length) :
    ((sortZX data indices).2).map
        (fun k => (sortZX data indices).1.getD k default) =
      indices.map (fun i => data.getD i default) := by
  unfold sortZX
  simp only [List.map_map]
  refine List.map_eq_map_iff.mpr ?_
  intro i hi
  have hN : i < data.length := h i hi
  simp only [Function.comp]
  have hperm := List.mergeSort_perm data.enum vertBefore
  have hpermf : List.Perm
      ((data.enum.mergeSort vertBefore).map Prod.fst)
      (List.range data.length) := by
    have h1 := hperm.map Prod.fst
    rw [List.enum_map_fst] at h1
    exact h1
  have hnd : ((data.enum.mergeSort vertBefore).map Prod.fst).Nodup :=
    hpermf.nodup_iff.mpr (List.nodup_range data.length)
  have hmem : i ∈ (data.enum.mergeSort vertBefore).map Prod.fst :=
    hpermf.mem_iff.mpr (List.mem_range.mpr hN)
  have hk := buildMapping_getD_idxOf (i := 0)
    (m := List.replicate data.length 0) hnd hmem
    (by rw [List.length_replicate]; omega)
  rw [hk]
  simp only [Nat.zero_add]
  exact perm_enum_snd_getD hperm hN

theorem faceLoop_error_shape (P : List Vec3) (T : List Vec2) (Nm : List Vec3)
    (dt dn : Bool) (ind : Indet) :
    ∀ (s : IStream) (line : List Char) (verts : List (List Char))
      (st : FaceState),
      (∀ e, faceLoop P T Nm dt dn ind s line verts st = .error e →
        (∃ l, e = .malformedFaceDegree l) ∨ ∃ v, e = .malformedVertex v) := by
  intro s line verts st
  induction s, line, verts, st using faceLoop.induct P T Nm dt dn ind with
  | case1 s line verts st hskip s' hget =>
    intro e h
    rw [faceLoop.eq_def, if_pos hskip, hget] at h
    cases h
  | case2 s line verts st hskip l s' hget ih =>
    intro e h
    rw [faceLoop.eq_def, if_pos hskip, hget] at h
    exact ih e h
  | case3 s line verts st hskip r hdeg =>
    intro e h
    rw [faceLoop.eq_def, if_neg hskip] at h
    simp only [if_pos hdeg] at h
    cases h
    exact Or.inl ⟨line, rfl⟩
  | case4 s line verts st hskip r hdeg e' hintern =>
    intro e h
    rw [faceLoop.eq_def, if_neg hskip] at h
    simp only [if_neg hdeg, hintern] at h
    cases h
    exact Or.inr (internList_error_shape hintern)
  | case5 s line verts st hskip r hdeg st' hintern s' hget =>
    intro e h
    rw [faceLoop.eq_def, if_neg hskip] at h
    simp only [if_neg hdeg, hintern] at h
    rw [hget] at h
    cases h
  | case6 s line verts st hskip r hdeg st' hintern l s' hget ih =>
    intro e h
    rw [faceLoop.eq_def, if_neg hskip] at h
    simp only [if_neg hdeg, hintern] at h
    rw [hget] at h
    exact ih e h

/-- C8 amended: the conversion fails with one of the end-of-stream errors
exactly when the stream's eofbit is set at the completion of one of the
three attribute block reads — which happens when the stream is exhausted,
or when the block's terminating lookahead line was the last line of an
input that does not end in a newline. -/
theorem objToJs_eof_error_iff_eofbit (input : IStream) (dt dn : Bool)
    (ind : Indet) (rp : PvaResult Vec3) (rt : PvaResult Vec2)
    (rn : PvaResult Vec3)
    (hp : parseVertexAttribute mkVec3 'v' ' ' input [] ind.pvals [] = rp)
    (hpok : rp.ok = true) (hpne : ¬rp.attribs.length = 0)
    (ht : parseVertexAttribute mkVec2 'v' 't' rp.s rp.line ind.tvals [] = rt)
    (htok : rt.ok = true)
    (hn : parseVertexAttribute mkVec3 'v' 'n' rt.s rt.line ind.nvals [] = rn)
    (hnok : rn.ok = true) :
    ((objToJs input dt dn ind = .error .eofAfterPositions ∨
      objToJs input dt dn ind = .error .eofAfterTexcoords ∨
      objToJs input dt dn ind = .error .eofAfterNormals) ↔
      (rp.s.eofbit = true ∨ rt.s.eofbit = true ∨ rn.s.eofbit = true)) := by
  simp only [objToJs, hp, ht, hn]
  rw [if_neg (by simp [hpok]), if_neg hpne]
  by_cases hpe : rp.s.eofbit = true
  · rw [if_pos hpe]
    simp [hpe]
  · rw [if_neg hpe, if_neg (by simp [htok])]
    by_cases hte : rt.s.eofbit = true
    · rw [if_pos hte]
      simp [hpe, hte]
    · rw [if_neg hte, if_neg (by simp [hnok])]
      by_cases hne : rn.s.eofbit = true
      · rw [if_pos hne]
        simp [hpe, hte, hne]
      · rw [if_neg hne]
        simp only [hpe, hte, hne, or_false]
        constructor
        · intro h
          exfalso
          rcases h with h | h | h <;>
            rcases faceLoop_error_shape _ _ _ dt dn ind _ _ _ _ _ h with
              ⟨l, hl⟩ | ⟨v, hv⟩ <;> simp_all
        · intro h
          simp at h

/-- Witness for the amended C8 at the `inpNoNL` run. -/
theorem objToJs_eof_error_iff_eofbit_witness :
    objToJs inpNoNL false false zeroIndet = .error .eofAfterPositions ∨
    objToJs inpNoNL false false zeroIndet = .error .eofAfterTexcoords ∨
    objToJs inpNoNL false false zeroIndet = .error .eofAfterNormals :=
  (objToJs_eof_error_iff_eofbit inpNoNL false false zeroIndet
    ⟨true, ⟨[], false, true⟩, strL "f 1 1 1", [0, 0, 0], [⟨0, 0, 0⟩]⟩
    ⟨true, ⟨[], false, true⟩, strL "f 1 1 1", [0, 0], []⟩
    ⟨true, ⟨[], false, true⟩, strL "f 1 1 1", [0, 0, 0], []⟩
    (by simp [parseVertexAttribute, getline, tokenize, tokenizeAux, cppSplit,
      splitFieldsAux, parseDouble, parseDoubleMag, digitsToNatAux, strL,
      mkVec3, zeroIndet, inpNoNL])
    rfl (by decide)
    (by simp [parseVertexAttribute, getline, tokenize, tokenizeAux, cppSplit,
      splitFieldsAux, parseDouble, parseDoubleMag, digitsToNatAux, strL,
      mkVec2, zeroIndet])
    rfl
    (by simp [parseVertexAttribute, getline, tokenize, tokenizeAux, cppSplit,
      splitFieldsAux, parseDouble, parseDoubleMag, digitsToNatAux, strL,
      mkVec3, zeroIndet])
    rfl).mpr (Or.inl rfl)

/-- Witness for C7 at a concrete buffer: three vertices with z-values
2, 1, 1 and x-values 0, 5, 3, and the index list `[0, 1, 2, 0, 2, 1]`. -/
theorem sortZX_preserves_topology_witness :
    ((sortZX
        [⟨false, false, ⟨0, 0, 2⟩, ⟨0, 0, 0⟩, ⟨0, 0⟩⟩,
         ⟨false, false, ⟨5, 0, 1⟩, ⟨0, 0, 0⟩, ⟨0, 0⟩⟩,
         ⟨false, false, ⟨3, 0, 1⟩, ⟨0, 0, 0⟩, ⟨0, 0⟩⟩]
        [0, 1, 2, 0, 2, 1]).2).map
      (fun k => (sortZX
        [⟨false, false, ⟨0, 0, 2⟩, ⟨0, 0, 0⟩, ⟨0, 0⟩⟩,
         ⟨false, false, ⟨5, 0, 1⟩, ⟨0, 0, 0⟩, ⟨0, 0⟩⟩,
         ⟨false, false, ⟨3, 0, 1⟩, ⟨0, 0, 0⟩, ⟨0, 0⟩⟩]
        [0, 1, 2, 0, 2, 1]).1.getD k default) =
      ([0, 1, 2, 0, 2, 1] : List Nat).map
        (fun i => ([⟨false, false, ⟨0, 0, 2⟩, ⟨0, 0, 0⟩, ⟨0, 0⟩⟩,
          ⟨false, false, ⟨5, 0, 1⟩, ⟨0, 0, 0⟩, ⟨0, 0⟩⟩,
          ⟨false, false, ⟨3, 0, 1⟩, ⟨0, 0, 0⟩, ⟨0, 0⟩⟩] :
            List Vertex).getD i default) :=
  sortZX_preserves_topology
    [⟨false, false, ⟨0, 0, 2⟩, ⟨0, 0, 0⟩, ⟨0, 0⟩⟩,
     ⟨false, false, ⟨5, 0, 1⟩, ⟨0, 0, 0⟩, ⟨0, 0⟩⟩,
     ⟨false, false, ⟨3, 0, 1⟩, ⟨0, 0, 0⟩, ⟨0, 0⟩⟩]
    [0, 1, 2, 0, 2, 1] (by decide)
